import Mathlib

/-!
Shallow embedding of the GBP factor-graph solver from
`src/gbp-rs/src/factorgraph/factorgraph.rs` (the repository kpbaks/gbp-rs).

Numbers are modelled as rationals.  Vectors are lists of rationals; dense
matrices carry their dimensions and an entry function.  Operations that panic
in the source (nalgebra out-of-range `rows` / `view` accesses, runtime
dimension mismatches in products) are modelled as `Option`-returning
functions, `none` standing for a panic.

The modules `factor.rs`, `variable.rs`, `gaussian.rs` and `message.rs` of the
repository are not under `src/`; only `factorgraph.rs` and `mod.rs` are.
Their behaviour is therefore modelled from the spec, through an explicit
record of operations (`GbpOps`) that mirrors the Rust trait bounds
`F : Factor` and `V : Variable` of the generic `FactorGraph` type.
-/

/-- A dense matrix over ℚ: explicit dimensions plus an entry function.
Mirrors nalgebra's `DMatrix` as used by `factorgraph.rs`. -/
structure Mat where
  nrows : ℕ
  ncols : ℕ
  entry : ℕ → ℕ → ℚ

/-- Zero matrix of the given dimensions. -/
def Mat.zero (r c : ℕ) : Mat := ⟨r, c, fun _ _ => 0⟩

/-- Mirrors `dst.view_mut((i, j), (r, c)).add_assign(src.view((si, sj), (r, c)))`
on nalgebra matrices: both views must be in range, otherwise the source
panics (modelled as `none`). -/
def Mat.viewAddAssign (dst : Mat) (i j r c : ℕ) (src : Mat) (si sj : ℕ) :
    Option Mat :=
  if i + r ≤ dst.nrows ∧ j + c ≤ dst.ncols ∧ si + r ≤ src.nrows ∧ sj + c ≤ src.ncols then
    some { dst with
      entry := fun a b =>
        if i ≤ a ∧ a < i + r ∧ j ≤ b ∧ b < j + c then
          dst.entry a b + src.entry (si + (a - i)) (sj + (b - j))
        else dst.entry a b }
  else none

/-- Matrix product with nalgebra's runtime dimension check: panics (`none`)
unless the inner dimensions agree. -/
def Mat.mul (a b : Mat) : Option Mat :=
  if a.ncols = b.nrows then
    some ⟨a.nrows, b.ncols, fun i j =>
      (List.range a.ncols).foldl (fun acc k => acc + a.entry i k * b.entry k j) 0⟩
  else none

/-- A column vector (nalgebra `DVector`) viewed as an n×1 matrix. -/
def vecAsMat (v : List ℚ) : Mat := ⟨v.length, 1, fun i _ => v.getD i 0⟩

/-- Mirrors `dst.rows_mut(i, n).add_assign(src.rows(si, n))` on nalgebra
vectors: both row ranges must be in bounds, otherwise panic (`none`). -/
def rowsAddAssign (dst : List ℚ) (i n : ℕ) (src : List ℚ) (si : ℕ) :
    Option (List ℚ) :=
  if i + n ≤ dst.length ∧ si + n ≤ src.length then
    some ((List.range dst.length).map (fun k =>
      dst.getD k 0 + if i ≤ k ∧ k < i + n then src.getD (si + (k - i)) 0 else 0))
  else none

/-- Mirrors `dst.rows_mut(i, n).add_assign(m)` where `m` is an n×1 matrix
(the result of a vector-matrix product in `gradient`): the row range must be
in bounds and the shapes must match, otherwise panic (`none`). -/
def rowsAddAssignMat (dst : List ℚ) (i n : ℕ) (m : Mat) : Option (List ℚ) :=
  if i + n ≤ dst.length ∧ m.nrows = n ∧ m.ncols = 1 then
    some ((List.range dst.length).map (fun k =>
      dst.getD k 0 + if i ≤ k ∧ k < i + n then m.entry (k - i) 0 else 0))
  else none

/-- Mirrors `var_ix[id] = value`: in-bounds list update, panic (`none`)
when the index is out of range. -/
def setAt (l : List ℕ) (i : ℕ) (v : ℕ) : Option (List ℕ) :=
  if i < l.length then some (l.set i v) else none

/-- Componentwise difference of two vectors of equal length, as in
`adj_means - linearisation_point` inside `jit_linearisation`.  The source
panics on a length mismatch; the spec invariant (the cached linearisation
point has the dimension of the stacked adjacency) guarantees equal lengths,
which every graph considered here satisfies. -/
def subVec (a b : List ℚ) : List ℚ := List.zipWith (fun x y => x - y) a b

/-- Sum of squares of a vector, the square of its Euclidean norm. -/
def sumSq (v : List ℚ) : ℚ := (v.map (fun x => x * x)).sum

/-- The test `‖v‖ > beta` of `jit_linearisation`, expressed over ℚ on
squares so that it stays executable; `normGtBeta_iff` proves it equal to
the real-number comparison against the Euclidean norm. -/
def normGtBeta (v : List ℚ) (beta : ℚ) : Bool :=
  decide (beta < 0) || decide (beta * beta < sumSq v)

/-- Multivariate normal in information form, mirroring
`MultivariateNormal` of `gaussian.rs` as used by `factorgraph.rs`. -/
structure MultivariateNormal where
  dim : ℕ
  informationVector : List ℚ
  precisionMatrix : Mat

/-- Modelled from the spec: `MultivariateNormal::new(dim, None, None)`
(`gaussian.rs` is not under `src/`); the spec states `new(d)` yields
η = 0, Λ = 0. -/
def MultivariateNormal.new (dim : ℕ) : MultivariateNormal :=
  ⟨dim, List.replicate dim 0, Mat.zero dim dim⟩

/-- Mirrors the `MeasurementModelKind` enum of `measurement_model.rs`
(matched on by `jit_linearisation`). -/
inductive MeasurementModelKind where
  | Linear : MeasurementModelKind
  | NonLinear : MeasurementModelKind
deriving DecidableEq

/-- Mirrors the `Include` newtype around `bool`. -/
structure Include where
  val : Bool

/-- Mirrors the `Dropout` newtype around `bool`. -/
structure Dropout where
  val : Bool

/-- Mirrors `GbpSettings`.  `dropout` is the inner value of the validated
`UnitInterval` newtype. -/
structure GbpSettings where
  damping : ℚ
  beta : ℚ
  numberOfUndampedIterations : ℕ
  minimumLinearIteration : ℕ
  dropout : ℚ
  resetIterationsSinceRelinearisation : List ℕ

/-- Mirrors the private method `GbpSettings::damping`: the configured
damping once `iterations_since_relinearisation` exceeds
`number_of_undamped_iterations`, zero before that. -/
def GbpSettings.dampingAt (s : GbpSettings) (itersSinceRelin : ℕ) : ℚ :=
  if s.numberOfUndampedIterations < itersSinceRelin then s.damping else 0

/-- Mirrors `SolveSettings`. -/
structure SolveSettings where
  iterations : ℕ
  convergenceThreshold : ℚ
  includePriors : Include
  log : Bool

/-- The two exit paths of `solve`: the early `return` taken when the
convergence counter reaches 3 (spec name `Converged`) and falling out of
the iteration loop (spec name `MaxIterationsReached`). -/
inductive SolveStatus where
  | Converged : SolveStatus
  | MaxIterationsReached : SolveStatus
deriving DecidableEq

/-- Mirrors `FactorNode<L, F>` (the `PhantomData` marker is dropped). -/
structure FactorNode (F : Type) where
  id : ℕ
  iterationsSinceRelinearisation : ℕ
  factor : F
  adjacentVariables : List ℕ
deriving DecidableEq

/-- Mirrors `VariableNode<V>`; the payload field is named `variable` in
the source, a reserved word here. -/
structure VariableNode (V : Type) where
  id : ℕ
  dofs : ℕ
  variableData : V
deriving DecidableEq

/-- Mirrors `FactorGraph<L, F, V>`; the node list is named `variables` in
the source, a reserved word here. -/
structure FactorGraph (F V : Type) where
  factors : List (FactorNode F)
  variableNodes : List (VariableNode V)
  gbpSettings : GbpSettings

/-- Modelled from the spec: the operations of the Rust trait bounds
`F : Factor<L>` and `V : Variable` (the modules `factor.rs`, `variable.rs`
and `gaussian.rs` are not under `src/`).  The factor methods take `&self`
in Rust and reach their adjacent variables through shared references;
here that hidden world is passed and returned explicitly as the list of
variable nodes.  `computeMessagesF` computes and stores the outgoing
messages of one factor (writing the message slots of its neighbour
variables), `computeF` relinearises the factor around the current
adjacency mean, `robustifyF` rescales the loss, `energyF` is the
factor's squared-error energy against the current adjacency mean,
`adjMeansF` is the stacked mean of the adjacent beliefs, `linPointF` is
the cached linearisation point, `kindF` the measurement-model kind,
`getGaussianF` the factor's current Gaussian in information form,
`residualF` its residual, `updateBeliefV` recomputes the belief as
prior plus incoming messages, `priorEnergyV` is the squared Mahalanobis
distance of the belief mean from the prior mean, and `priorV`,
`beliefMeanV`, `priorMeanV`, `priorCovV` are the accessors used by
`joint_distribution` and `gradient`. -/
structure GbpOps (F V : Type) where
  computeMessagesF : ℚ → F → List (VariableNode V) → F × List (VariableNode V)
  computeF : F → List (VariableNode V) → F
  robustifyF : F → F
  energyF : F → List (VariableNode V) → ℚ
  adjMeansF : F → List (VariableNode V) → List ℚ
  linPointF : F → List ℚ
  kindF : F → MeasurementModelKind
  getGaussianF : F → MultivariateNormal
  residualF : F → List (VariableNode V) → List ℚ
  updateBeliefV : V → V
  priorEnergyV : V → ℚ
  priorV : V → MultivariateNormal
  beliefMeanV : V → List ℚ
  priorMeanV : V → List ℚ
  priorCovV : V → Mat

/-- Mirrors `FactorGraph::update_beliefs`: every variable recomputes its
belief. -/
def FactorGraph.updateBeliefs {F V : Type} (ops : GbpOps F V) (g : FactorGraph F V) :
    FactorGraph F V :=
  { g with variableNodes := g.variableNodes.map (fun vn =>
      { vn with variableData := ops.updateBeliefV vn.variableData }) }

/-- The factor sweep of `FactorGraph::compute_messages`.  `draws` is the
stream behind `rand::random::<f64>()` and `off` the index of the next
draw; one draw is consumed per factor exactly when the dropout flag is
set (the `||` short-circuits the call to `rand::random` otherwise).  A
factor's messages are computed when the flag is unset or the draw
strictly exceeds the dropout value, with damping
`GbpSettings::damping(iterations_since_relinearisation)`; nothing in
this sweep touches the `iterations_since_relinearisation` counters. -/
def computeMessagesGo {F V : Type} (ops : GbpOps F V) (set : GbpSettings)
    (applyDropout : Dropout) (draws : ℕ → ℚ) :
    ℕ → List (FactorNode F) → List (VariableNode V) →
    List (FactorNode F) × List (VariableNode V)
  | _, [], vars => ([], vars)
  | off, fn :: rest, vars =>
    let off2 := if applyDropout.val then off + 1 else off
    if applyDropout.val = false ∨ set.dropout < draws off then
      let damping := set.dampingAt fn.iterationsSinceRelinearisation
      let fv := ops.computeMessagesF damping fn.factor vars
      let tail := computeMessagesGo ops set applyDropout draws off2 rest fv.2
      ({ fn with factor := fv.1 } :: tail.1, tail.2)
    else
      let tail := computeMessagesGo ops set applyDropout draws off2 rest vars
      (fn :: tail.1, tail.2)

/-- Mirrors `FactorGraph::compute_messages`. -/
def FactorGraph.computeMessages {F V : Type} (ops : GbpOps F V) (g : FactorGraph F V)
    (applyDropout : Dropout) (draws : ℕ → ℚ) (off : ℕ) : FactorGraph F V :=
  let r := computeMessagesGo ops g.gbpSettings applyDropout draws off
    g.factors g.variableNodes
  { g with factors := r.1, variableNodes := r.2 }

/-- Mirrors `FactorGraph::jit_linearisation`: a non-linear factor is
recomputed when the Euclidean norm of (stacked adjacency mean − cached
linearisation point) exceeds `beta`; linear factors are left alone.  The
counters `iterations_since_relinearisation` are not touched (the
increment is commented out in the source). -/
def FactorGraph.jitLinearisation {F V : Type} (ops : GbpOps F V)
    (g : FactorGraph F V) : FactorGraph F V :=
  { g with factors := g.factors.map (fun fn =>
      match ops.kindF fn.factor with
      | MeasurementModelKind.NonLinear =>
        if normGtBeta (subVec (ops.adjMeansF fn.factor g.variableNodes)
            (ops.linPointF fn.factor)) g.gbpSettings.beta then
          { fn with factor := ops.computeF fn.factor g.variableNodes }
        else fn
      | MeasurementModelKind.Linear => fn) }

/-- Mirrors `FactorGraph::robustify_factors`. -/
def FactorGraph.robustifyFactors {F V : Type} (ops : GbpOps F V)
    (g : FactorGraph F V) : FactorGraph F V :=
  { g with factors := g.factors.map (fun fn =>
      { fn with factor := ops.robustifyF fn.factor }) }

/-- Mirrors `FactorGraph::compute_factors` (linearise all factors). -/
def FactorGraph.computeFactors {F V : Type} (ops : GbpOps F V)
    (g : FactorGraph F V) : FactorGraph F V :=
  { g with factors := g.factors.map (fun fn =>
      { fn with factor := ops.computeF fn.factor g.variableNodes }) }

/-- Mirrors `FactorGraph::synchronous_iteration`: robustify, then jit
linearisation, then message computation with the dropout flag set, then
belief updates. -/
def FactorGraph.synchronousIteration {F V : Type} (ops : GbpOps F V)
    (g : FactorGraph F V) (draws : ℕ → ℚ) (off : ℕ) : FactorGraph F V :=
  (((g.robustifyFactors ops).jitLinearisation ops).computeMessages ops
    ⟨true⟩ draws off).updateBeliefs ops

/-- Mirrors `FactorGraph::energy`: fold of the factor energies, plus the
fold of the variable prior energies when priors are included. -/
def FactorGraph.energy {F V : Type} (ops : GbpOps F V) (g : FactorGraph F V)
    (includePriors : Include) : ℚ :=
  let factorEnergy := g.factors.foldl
    (fun acc fn => acc + ops.energyF fn.factor g.variableNodes) 0
  let priorEnergy := if includePriors.val then
      g.variableNodes.foldl (fun acc vn => acc + ops.priorEnergyV vn.variableData) 0
    else 0
  factorEnergy + priorEnergy

/-- Mirrors `FactorGraph::get_joint_dim`: the sum of all dofs. -/
def FactorGraph.getJointDim {F V : Type} (g : FactorGraph F V) : ℕ :=
  (g.variableNodes.map (fun vn => vn.dofs)).sum

/-- The reset step inside `solve`: when the iteration index is listed in
`reset_iterations_since_relinearisation`, every factor's counter is set
to 1. -/
def FactorGraph.applyReset {F V : Type} (g : FactorGraph F V) (i : ℕ) :
    FactorGraph F V :=
  if g.gbpSettings.resetIterationsSinceRelinearisation.contains i then
    { g with factors := g.factors.map (fun fn =>
        { fn with iterationsSinceRelinearisation := 1 }) }
  else g

/-- The loop of `FactorGraph::solve`, with the energy of each executed
iteration collected into a trace.  `eprev` carries `energy_log[1]` as it
stands on entry to the iteration (initially 0), `count` the consecutive
convergence counter.  The early `return` is `Converged`; exhausting the
loop is `MaxIterationsReached`. -/
def solveGo {F V : Type} (ops : GbpOps F V) (settings : SolveSettings)
    (draws : ℕ → ℚ) :
    ℕ → ℕ → FactorGraph F V → ℕ → ℚ → ℕ → List ℚ → SolveStatus × List ℚ
  | 0, _, _, _, _, _, acc => (SolveStatus.MaxIterationsReached, acc.reverse)
  | fuel + 1, i, g, off, eprev, count, acc =>
    let g2 := (g.synchronousIteration ops draws off).applyReset i
    let off2 := off + g.factors.length
    let enow := g2.energy ops settings.includePriors
    let acc2 := enow :: acc
    if |eprev - enow| < settings.convergenceThreshold then
      if 3 ≤ count + 1 then (SolveStatus.Converged, acc2.reverse)
      else solveGo ops settings draws fuel (i + 1) g2 off2 enow (count + 1) acc2
    else solveGo ops settings draws fuel (i + 1) g2 off2 enow 0 acc2

/-- Mirrors `FactorGraph::solve`.  The source returns `()`; the exit path
(early return on convergence versus loop exhaustion) and the sequence of
per-iteration energies are its observable behaviour and are returned
here. -/
def FactorGraph.solve {F V : Type} (ops : GbpOps F V) (g : FactorGraph F V)
    (settings : SolveSettings) (draws : ℕ → ℚ) : SolveStatus × List ℚ :=
  solveGo ops settings draws settings.iterations 0 g 0 0 0 []

/-- The variable-prior sweep of `FactorGraph::joint_distribution`.
Carries `var_ix`, the running `counter` and the joint being assembled.
Faithful to the source, the slice taken **from the prior** also starts at
`counter`: `variable.prior().information_vector.rows(counter, dofs)` and
the matching `view((counter, counter), (dofs, dofs))` on the prior's
precision matrix. -/
def jointPriorsGo {V : Type} (priorOf : V → MultivariateNormal) :
    List (VariableNode V) → List ℕ → ℕ → MultivariateNormal →
    Option (List ℕ × ℕ × MultivariateNormal)
  | [], varIx, counter, joint => some (varIx, counter, joint)
  | vn :: rest, varIx, counter, joint => do
    let varIx2 ← setAt varIx vn.id counter
    let prior := priorOf vn.variableData
    let iv ← rowsAddAssign joint.informationVector counter vn.dofs
      prior.informationVector counter
    let pm ← joint.precisionMatrix.viewAddAssign counter counter vn.dofs vn.dofs
      prior.precisionMatrix counter counter
    jointPriorsGo priorOf rest varIx2 (counter + vn.dofs)
      { joint with informationVector := iv, precisionMatrix := pm }

/-- The inner loop of the factor scatter in `joint_distribution`, over the
full adjacency list of the factor.  Faithful to the source: for every
other neighbour with a strictly larger id, one off-diagonal contribution
is added at block (var_ix[v], var_ix[v]) with size (v.dofs, v.dofs) from
the factor block (fact_ix, other_fact_ix), and one at
(var_ix[w], var_ix[v]) with size (w.dofs, v.dofs) from
(other_fact_ix, fact_ix); `fact_ix` is incremented by v.dofs on **every**
inner pass (the increment sits inside the inner loop in the source). -/
def jointFactorInner {V : Type} (vars : List (VariableNode V)) (varIx : List ℕ)
    (vId vDofs vVarIx : ℕ) (fg : MultivariateNormal) :
    List ℕ → ℕ → ℕ → Mat → Option (ℕ × ℕ × Mat)
  | [], factIx, otherFactIx, lam => some (factIx, otherFactIx, lam)
  | wId :: rest, factIx, otherFactIx, lam =>
    if vId < wId then do
      let wNode ← vars.get? wId
      let wVarIx ← varIx.get? wId
      let lam1 ← lam.viewAddAssign vVarIx vVarIx vDofs vDofs
        fg.precisionMatrix factIx otherFactIx
      let lam2 ← lam1.viewAddAssign wVarIx vVarIx wNode.dofs vDofs
        fg.precisionMatrix otherFactIx factIx
      jointFactorInner vars varIx vId vDofs vVarIx fg rest
        (factIx + vDofs) (otherFactIx + wNode.dofs) lam2
    else
      jointFactorInner vars varIx vId vDofs vVarIx fg rest
        (factIx + vDofs) otherFactIx lam

/-- The outer loop of the factor scatter in `joint_distribution`: the
diagonal contribution of the factor at (var_ix[v], var_ix[v]) from the
factor block (fact_ix, fact_ix), then the inner loop over the full
adjacency list. -/
def jointFactorOuter {V : Type} (vars : List (VariableNode V)) (varIx : List ℕ)
    (fg : MultivariateNormal) (adjFull : List ℕ) :
    List ℕ → ℕ → MultivariateNormal → Option (ℕ × MultivariateNormal)
  | [], factIx, joint => some (factIx, joint)
  | vId :: rest, factIx, joint => do
    let vNode ← vars.get? vId
    let vVarIx ← varIx.get? vId
    let iv ← rowsAddAssign joint.informationVector vVarIx vNode.dofs
      fg.informationVector factIx
    let pm ← joint.precisionMatrix.viewAddAssign vVarIx vVarIx vNode.dofs vNode.dofs
      fg.precisionMatrix factIx factIx
    let innerRes ← jointFactorInner vars varIx vId vNode.dofs vVarIx fg adjFull
      factIx 0 pm
    jointFactorOuter vars varIx fg adjFull rest innerRes.1
      { joint with informationVector := iv, precisionMatrix := innerRes.2.2 }

/-- The factor sweep of `joint_distribution`. -/
def jointFactorsGo {F V : Type} (ops : GbpOps F V) (vars : List (VariableNode V))
    (varIx : List ℕ) : List (FactorNode F) → MultivariateNormal →
    Option MultivariateNormal
  | [], joint => some joint
  | fn :: rest, joint => do
    let fg := ops.getGaussianF fn.factor
    let res ← jointFactorOuter vars varIx fg fn.adjacentVariables
      fn.adjacentVariables 0 joint
    jointFactorsGo ops vars varIx rest res.2

/-- Mirrors `FactorGraph::joint_distribution`: a zero joint of the total
dimension, the variable-prior sweep, then the factor scatter. -/
def FactorGraph.jointDistribution {F V : Type} (ops : GbpOps F V)
    (g : FactorGraph F V) : Option MultivariateNormal := do
  let dim := g.getJointDim
  let joint := MultivariateNormal.new dim
  let pr ← jointPriorsGo ops.priorV g.variableNodes
    (List.replicate g.variableNodes.length 0) 0 joint
  jointFactorsGo ops g.variableNodes pr.1 g.factors pr.2.2

/-- The inclusive prefix sums produced by the `scan` in
`FactorGraph::gradient`: entry k is the sum of the first k+1 dofs, so the
entry for a variable already includes that variable's own dofs. -/
def cumSumInc (acc : ℕ) : List ℕ → List ℕ
  | [] => []
  | x :: xs => (acc + x) :: cumSumInc (acc + x) xs

/-- Vector difference with nalgebra's runtime length check
(`belief.mean() - prior.mean()` in `gradient`). -/
def subVecChecked (a b : List ℚ) : Option (List ℚ) :=
  if a.length = b.length then some (subVec a b) else none

/-- The prior sweep of `FactorGraph::gradient`: for each variable, the
product (belief mean − prior mean) · prior covariance is added into the
gradient rows starting at `var_ix[id]` — the inclusive prefix sum. -/
def gradientPriorGo {V : Type} (beliefMeanOf priorMeanOf : V → List ℚ)
    (priorCovOf : V → Mat) (varIx : List ℕ) :
    List (VariableNode V) → List ℚ → Option (List ℚ)
  | [], grad => some grad
  | vn :: rest, grad => do
    let ix ← varIx.get? vn.id
    let diff ← subVecChecked (beliefMeanOf vn.variableData)
      (priorMeanOf vn.variableData)
    let prod ← (vecAsMat diff).mul (priorCovOf vn.variableData)
    let grad2 ← rowsAddAssignMat grad ix vn.dofs prod
    gradientPriorGo beliefMeanOf priorMeanOf priorCovOf varIx rest grad2

/-- Mirrors `FactorGraph::gradient`.  The factor loop in the source binds
each factor's residual and measurement model and discards them, adding
nothing to the gradient; it is reproduced here as a discarded
traversal. -/
def FactorGraph.gradient {F V : Type} (ops : GbpOps F V) (g : FactorGraph F V)
    (includePriors : Include) : Option (List ℚ) := do
  let dim := g.getJointDim
  let varDofs := g.variableNodes.map (fun vn => vn.dofs)
  let varIx := cumSumInc 0 varDofs
  let grad := List.replicate dim (0 : ℚ)
  let grad2 ← if includePriors.val then
      gradientPriorGo ops.beliefMeanV ops.priorMeanV ops.priorCovV varIx
        g.variableNodes grad
    else some grad
  let _ := g.factors.map (fun fn => ops.residualF fn.factor g.variableNodes)
  some grad2

/-- Modelled from the spec: a concrete one-dof variable payload in ℚ for
instantiating the generic graph — a prior, a belief and one incoming
message slot, each a 1-dimensional Gaussian in information form. -/
structure CVar where
  priorEta : ℚ
  priorLam : ℚ
  beliefEta : ℚ
  beliefLam : ℚ
  msgEta : ℚ
  msgLam : ℚ
deriving DecidableEq

/-- Mean of the belief, Λ⁻¹ η in one dimension. -/
def CVar.beliefMean (v : CVar) : ℚ := v.beliefEta / v.beliefLam

/-- Mean of the prior, Λ⁻¹ η in one dimension. -/
def CVar.priorMean (v : CVar) : ℚ := v.priorEta / v.priorLam

/-- Modelled from the spec: a concrete single-neighbour factor payload in
ℚ with measurement model predict(x) = x (so J = 1), measurement `z`, unit
Gaussian loss (W = 1), current factor Gaussian (η, Λ) in one dimension
and cached linearisation point x₀. -/
structure CFac where
  kind : MeasurementModelKind
  z : ℚ
  eta : ℚ
  lam : ℚ
  x0 : ℚ
deriving DecidableEq

/-- Belief mean of the (single) adjacent variable, the stacked adjacency
mean of a one-neighbour factor attached to variable node 0. -/
def cAdjMean (vars : List (VariableNode CVar)) : ℚ :=
  match vars with
  | [] => 0
  | vn :: _ => vn.variableData.beliefMean

/-- Modelled from the spec: the trait operations for the concrete
payloads.  The outgoing message of a single-neighbour factor is the
factor Gaussian itself (no Schur term), damped per-field against the
previous stored message; compute() relinearises at the current adjacency
mean x, giving Λ = Jᵀ W J = 1 and η = Jᵀ W (J x + r) = z; the factor
energy is rᵀ W r with r = z − x; the variable belief is prior plus the
incoming message, and its prior energy the squared Mahalanobis distance
of the belief mean from the prior mean under the prior covariance. -/
def cOps : GbpOps CFac CVar where
  computeMessagesF := fun d f vars =>
    (f, vars.map (fun vn =>
      if vn.id = 0 then
        { vn with variableData :=
          { vn.variableData with
            msgEta := (1 - d) * f.eta + d * vn.variableData.msgEta,
            msgLam := (1 - d) * f.lam + d * vn.variableData.msgLam } }
      else vn))
  computeF := fun f vars =>
    { f with eta := f.z, lam := 1, x0 := cAdjMean vars }
  robustifyF := fun f => f
  energyF := fun f vars => (f.z - cAdjMean vars) * (f.z - cAdjMean vars)
  adjMeansF := fun _ vars => [cAdjMean vars]
  linPointF := fun f => [f.x0]
  kindF := fun f => f.kind
  getGaussianF := fun f => ⟨1, [f.eta], ⟨1, 1, fun _ _ => f.lam⟩⟩
  residualF := fun f vars => [f.z - cAdjMean vars]
  updateBeliefV := fun v =>
    { v with beliefEta := v.priorEta + v.msgEta, beliefLam := v.priorLam + v.msgLam }
  priorEnergyV := fun v =>
    (v.beliefMean - v.priorMean) * (v.beliefMean - v.priorMean) * v.priorLam
  priorV := fun v => ⟨1, [v.priorEta], ⟨1, 1, fun _ _ => v.priorLam⟩⟩
  beliefMeanV := fun v => [v.beliefMean]
  priorMeanV := fun v => [v.priorMean]
  priorCovV := fun v => ⟨1, 1, fun _ _ => 1 / v.priorLam⟩

/-- Modelled from the spec: a trivial instantiation whose factor payload
is its information-form Gaussian, used to evaluate the joint-assembly
code on factors of any dimension. -/
def jointOps : GbpOps MultivariateNormal CVar where
  computeMessagesF := fun _ f vars => (f, vars)
  computeF := fun f _ => f
  robustifyF := fun f => f
  energyF := fun _ _ => 0
  adjMeansF := fun _ _ => []
  linPointF := fun _ => []
  kindF := fun _ => MeasurementModelKind.Linear
  getGaussianF := fun f => f
  residualF := fun _ _ => []
  updateBeliefV := fun v => v
  priorEnergyV := fun _ => 0
  priorV := fun v => ⟨1, [v.priorEta], ⟨1, 1, fun _ _ => v.priorLam⟩⟩
  beliefMeanV := fun v => [v.beliefMean]
  priorMeanV := fun v => [v.priorMean]
  priorCovV := fun v => ⟨1, 1, fun _ _ => 1 / v.priorLam⟩

/-- Default GBP settings of the source (`damping 0, beta 0.1, 5 undamped
iterations, minimum linear iteration 10, dropout 0, no resets`). -/
def cSettings : GbpSettings := ⟨0, 1/10, 5, 10, 0, []⟩

/-- A variable with prior N(0, 1) in information form, belief equal to
the prior, zero message slot. -/
def cVar0 : CVar := ⟨0, 1, 0, 1, 0, 0⟩

/-- A variable whose belief mean is 2 (η = 4, Λ = 2), prior N(0, 1). -/
def cVarB : CVar := ⟨0, 1, 4, 2, 0, 0⟩

/-- A linear factor with measurement z = 2 already linearised once at
x₀ = 0 (η = z = 2, Λ = 1). -/
def cFac0 : CFac := ⟨MeasurementModelKind.Linear, 2, 2, 1, 0⟩

/-- The same factor marked non-linear, for exercising jit
relinearisation. -/
def cFacNL : CFac := ⟨MeasurementModelKind.NonLinear, 2, 2, 1, 0⟩

/-- One variable, one single-neighbour factor: the graph used to compare
two solve runs under different dropout streams. -/
def cGraphC7 : FactorGraph CFac CVar :=
  ⟨[⟨0, 0, cFac0, [0]⟩], [⟨0, 1, cVar0⟩], cSettings⟩

/-- Solve settings: one iteration, threshold 10⁻⁶, priors included. -/
def cSolveSettings : SolveSettings := ⟨1, 1/1000000, ⟨true⟩, false⟩

/-- A dropout stream that always draws 1/2. -/
def drawsHalf : ℕ → ℚ := fun _ => 1/2

/-- A dropout stream that always draws 0, the low end of [0,1). -/
def drawsZero : ℕ → ℚ := fun _ => 0

/-- A dropout stream that always draws 1/3. -/
def drawsThird : ℕ → ℚ := fun _ => 1/3

/-- Graph with settings beta = 1 and a non-linear factor whose adjacency
mean (2) has drifted from its linearisation point (0). -/
def cGraphC8 : FactorGraph CFac CVar :=
  ⟨[⟨0, 0, cFacNL, [0]⟩], [⟨0, 1, cVarB⟩], ⟨0, 1, 5, 10, 0, []⟩⟩

/-- A symmetric 2×2 factor Gaussian (η = (1,2), Λ = ((2,1),(1,3))). -/
def fgC1 : MultivariateNormal :=
  ⟨2, [1, 2], ⟨2, 2, fun i j =>
    if i = 0 ∧ j = 0 then 2 else if i = 1 ∧ j = 1 then 3 else 1⟩⟩

/-- Two one-dof variables and one factor adjacent to both, carrying the
symmetric Gaussian `fgC1`. -/
def cGraphC1 : FactorGraph MultivariateNormal CVar :=
  ⟨[⟨0, 0, fgC1, [0, 1]⟩], [⟨0, 1, cVar0⟩, ⟨1, 1, cVar0⟩], cSettings⟩

/-- Two one-dof variables and no factors: enough to reach the second
variable in the prior sweep of `joint_distribution`. -/
def cGraphC4 : FactorGraph MultivariateNormal CVar :=
  ⟨[], [⟨0, 1, cVar0⟩, ⟨1, 1, cVarB⟩], cSettings⟩

/-- A single one-dof variable and no factors, for `gradient`. -/
def cGraphC5 : FactorGraph CFac CVar :=
  ⟨[], [⟨0, 1, cVar0⟩], cSettings⟩

/-- Two one-dof variables and no factors, for `gradient`. -/
def cGraphC10 : FactorGraph CFac CVar :=
  ⟨[], [⟨0, 1, cVarB⟩, ⟨1, 1, cVar0⟩], cSettings⟩

/-- A one-factor graph for reading counters after a message sweep. -/
def cGraphC3 : FactorGraph CFac CVar :=
  ⟨[⟨0, 0, cFac0, [0]⟩], [⟨0, 1, cVar0⟩], cSettings⟩

/-- The energy preceding index j in a trace: 0 before the first
iteration (the initial `energy_log`), otherwise the previous entry. -/
def prevE (tr : List ℚ) (j : ℕ) : ℚ := if j = 0 then 0 else tr.getD (j - 1) 0

/-- The convergence test of iteration j of a trace:
|energy_prev − energy_now| below the threshold. -/
def convAt (t : ℚ) (tr : List ℚ) (j : ℕ) : Prop :=
  |prevE tr j - tr.getD j 0| < t

/-- The convergence test held at iterations j, j−1 and j−2: three
consecutive convergent iterations ending at j. -/
def tripleAt (t : ℚ) (tr : List ℚ) (j : ℕ) : Prop :=
  2 ≤ j ∧ convAt t tr j ∧ convAt t tr (j - 1) ∧ convAt t tr (j - 2)

/-- Length of the maximal run of convergent iterations ending at the
head of a reversed trace; this is the value of `solve`'s counter. -/
def runLenRev (t : ℚ) : List ℚ → ℕ
  | [] => 0
  | e :: rest => if |rest.headD 0 - e| < t then runLenRev t rest + 1 else 0

theorem foldl_add_eq_sum {α : Type} (f : α → ℚ) :
    ∀ (l : List α) (a : ℚ), l.foldl (fun acc x => acc + f x) a = a + (l.map f).sum := by
  intro l
  induction l with
  | nil => intro a; simp
  | cons x xs ih =>
    intro a
    simp only [List.foldl_cons, List.map_cons, List.sum_cons, ih]
    ring

/-- C9: `energy(include_priors=true)` is the sum of all factor energies
plus the sum of all variable prior energies; `energy(include_priors=false)`
is the sum of factor energies alone, hence 0 on a graph without
factors. -/
theorem energy_sum_characterisation {F V : Type} (ops : GbpOps F V)
    (g : FactorGraph F V) (vs : List (VariableNode V)) (st : GbpSettings) :
    g.energy ops ⟨true⟩ =
      (g.factors.map (fun fn => ops.energyF fn.factor g.variableNodes)).sum +
      (g.variableNodes.map (fun vn => ops.priorEnergyV vn.variableData)).sum ∧
    g.energy ops ⟨false⟩ =
      (g.factors.map (fun fn => ops.energyF fn.factor g.variableNodes)).sum ∧
    FactorGraph.energy ops ⟨[], vs, st⟩ ⟨false⟩ = 0 := by
  refine ⟨?_, ?_, ?_⟩
  · simp [FactorGraph.energy, foldl_add_eq_sum]
  · simp [FactorGraph.energy, foldl_add_eq_sum]
  · simp [FactorGraph.energy]

theorem computeMessagesGo_counters {F V : Type} (ops : GbpOps F V)
    (set : GbpSettings) (apply : Dropout) (draws : ℕ → ℚ) :
    ∀ (factors : List (FactorNode F)) (off : ℕ) (vars : List (VariableNode V)),
      (computeMessagesGo ops set apply draws off factors vars).1.map
        (fun fn => fn.iterationsSinceRelinearisation) =
      factors.map (fun fn => fn.iterationsSinceRelinearisation) := by
  intro factors
  induction factors with
  | nil => intro off vars; simp [computeMessagesGo]
  | cons fn rest ih =>
    intro off vars
    simp only [computeMessagesGo]
    by_cases h : apply.val = false ∨ set.dropout < draws off
    · simp [h, ih]
    · simp [h, ih]

/-- C3: neither the message sweep (`compute_messages`) nor relinearising
every factor (`compute_factors`) changes any factor node's
`iterations_since_relinearisation` counter — the source never increments
it after storing messages and never resets it in `compute()`. -/
theorem counters_never_updated {F V : Type} (ops : GbpOps F V)
    (g : FactorGraph F V) (apply : Dropout) (draws : ℕ → ℚ) (off : ℕ) :
    (g.computeMessages ops apply draws off).factors.map
      (fun fn => fn.iterationsSinceRelinearisation) =
      g.factors.map (fun fn => fn.iterationsSinceRelinearisation) ∧
    (g.computeFactors ops).factors.map
      (fun fn => fn.iterationsSinceRelinearisation) =
      g.factors.map (fun fn => fn.iterationsSinceRelinearisation) := by
  constructor
  · exact computeMessagesGo_counters ops g.gbpSettings apply draws g.factors off
      g.variableNodes
  · simp [FactorGraph.computeFactors]

/-- C1: evaluating the factor scatter of `joint_distribution` on a factor
with two distinct one-dof neighbours and a symmetric 2×2 Λ_f panics
(out-of-range row read at fact_ix = 2 after the misplaced inner-loop
increment), instead of scattering the off-diagonal blocks onto
(var_ix[v], var_ix[w]) and producing a symmetric joint. -/
theorem joint_offdiagonal_scatter_panics :
    (jointFactorsGo jointOps cGraphC1.variableNodes [0, 1] cGraphC1.factors
      (MultivariateNormal.new 2)).isNone = true := by decide

/-- C4: evaluating `joint_distribution` on a two-variable graph panics in
the prior sweep: the slice taken from the second variable's own prior
starts at the running offset `counter` = 1, out of range for its
one-dimensional prior. -/
theorem joint_prior_scatter_panics :
    (cGraphC4.jointDistribution jointOps).isNone = true := by decide

/-- C5: evaluating `gradient(include_priors=true)` on a one-variable
graph panics (the prior slice is written at the inclusive prefix sum
var_ix[0] = dofs, out of range) and the factor loop never adds Jᵀ W r:
no gradient vector is returned. -/
theorem gradient_panics_no_factor_contribution :
    (cGraphC5.gradient cOps ⟨true⟩).isNone = true := by decide

/-- C6: in the message sweep, factor j is skipped exactly when the
dropout flag is set and its uniform draw is ≤ the configured dropout
value; otherwise its messages are computed with damping
`GbpSettings::damping(iterations_since_relinearisation)`, against the
variable state left by the preceding factors. -/
theorem compute_messages_dropout_damping {F V : Type} (ops : GbpOps F V)
    (set : GbpSettings) (apply : Dropout) (draws : ℕ → ℚ) :
    ∀ (factors : List (FactorNode F)) (vars : List (VariableNode V)) (off j : ℕ),
      (computeMessagesGo ops set apply draws off factors vars).1.get? j =
        (factors.get? j).map (fun fn =>
          if apply.val = true ∧ draws (off + j) ≤ set.dropout then fn
          else { fn with factor := (ops.computeMessagesF
            (set.dampingAt fn.iterationsSinceRelinearisation) fn.factor
            (computeMessagesGo ops set apply draws off (factors.take j) vars).2).1 }) := by
  intro factors
  induction factors with
  | nil => intro vars off j; simp [computeMessagesGo]
  | cons fn rest ih =>
    intro vars off j
    cases j with
    | zero =>
      by_cases ha : apply.val = true
      · by_cases hq : set.dropout < draws off
        · simp [computeMessagesGo, ha, hq, not_le.mpr hq]
        · simp [computeMessagesGo, ha, hq, not_lt.mp hq]
      · have ha' : apply.val = false := by
          cases h : apply.val
          · rfl
          · exact absurd h ha
        simp [computeMessagesGo, ha']
    | succ k =>
      by_cases hC : apply.val = false ∨ set.dropout < draws off
      · have ha2 : (if apply.val then off + 1 else off) + k = off + (k + 1) ∨
            apply.val = false := by
          cases h : apply.val
          · exact Or.inr rfl
          · simp [h]; omega
        simp only [computeMessagesGo, if_pos hC, List.get?_cons_succ, List.take_succ_cons]
        rw [ih]
        rcases ha2 with h | h
        · rw [h]
        · simp [h]
      · have ha : apply.val = true := by
          cases h : apply.val
          · exact absurd (Or.inl h) hC
          · rfl
        have hoff : (if apply.val then off + 1 else off) + k = off + (k + 1) := by
          simp [ha]; omega
        simp only [computeMessagesGo, if_neg hC, List.get?_cons_succ, List.take_succ_cons]
        rw [ih, hoff]

theorem sumSq_nonneg (v : List ℚ) : 0 ≤ sumSq v := by
  refine List.sum_nonneg ?_
  intro x hx
  obtain ⟨y, _, rfl⟩ := List.mem_map.mp hx
  exact mul_self_nonneg y

theorem normGtBeta_iff (v : List ℚ) (beta : ℚ) :
    normGtBeta v beta = true ↔
      (beta : ℝ) < Real.sqrt ((sumSq v : ℚ) : ℝ) := by
  by_cases hb : beta < 0
  · refine iff_of_true ?_ ?_
    · simp [normGtBeta, hb]
    · have h1 : (beta : ℝ) < 0 := by exact_mod_cast hb
      exact lt_of_lt_of_le h1 (Real.sqrt_nonneg _)
  · have hb' : (0 : ℝ) ≤ (beta : ℝ) := by
      have := not_lt.mp hb
      exact_mod_cast this
    rw [Real.lt_sqrt hb']
    have hcast : ((beta : ℝ)) ^ 2 = ((beta * beta : ℚ) : ℝ) := by
      push_cast
      ring
    rw [hcast]
    constructor
    · intro h
      have h2 : beta < 0 ∨ beta * beta < sumSq v := by
        simpa [normGtBeta] using h
      rcases h2 with h3 | h3
      · exact absurd h3 hb
      · exact_mod_cast h3
    · intro h
      have h2 : beta * beta < sumSq v := by exact_mod_cast h
      simp [normGtBeta, h2]

/-- C8: in the jit step, a factor found at position j is relinearised
(`compute()` re-run) when it is non-linear and the Euclidean norm of
(current adjacency mean − cached linearisation point) exceeds beta; a
linear factor, or a non-linear one within the beta threshold, is left
untouched. -/
theorem jit_relinearisation_condition {F V : Type} (ops : GbpOps F V)
    (g : FactorGraph F V) (j : ℕ) (fn : FactorNode F)
    (hj : g.factors.get? j = some fn) :
    (ops.kindF fn.factor = MeasurementModelKind.NonLinear ∧
       (g.gbpSettings.beta : ℝ) <
         Real.sqrt ((sumSq (subVec (ops.adjMeansF fn.factor g.variableNodes)
           (ops.linPointF fn.factor)) : ℚ) : ℝ) →
       (g.jitLinearisation ops).factors.get? j =
         some { fn with factor := ops.computeF fn.factor g.variableNodes }) ∧
    (ops.kindF fn.factor = MeasurementModelKind.Linear →
       (g.jitLinearisation ops).factors.get? j = some fn) ∧
    (¬ (g.gbpSettings.beta : ℝ) <
         Real.sqrt ((sumSq (subVec (ops.adjMeansF fn.factor g.variableNodes)
           (ops.linPointF fn.factor)) : ℚ) : ℝ) →
       (g.jitLinearisation ops).factors.get? j = some fn) := by
  have hmap : (g.jitLinearisation ops).factors.get? j =
      (g.factors.get? j).map (fun fn' =>
        match ops.kindF fn'.factor with
        | MeasurementModelKind.NonLinear =>
          if normGtBeta (subVec (ops.adjMeansF fn'.factor g.variableNodes)
              (ops.linPointF fn'.factor)) g.gbpSettings.beta then
            { fn' with factor := ops.computeF fn'.factor g.variableNodes }
          else fn'
        | MeasurementModelKind.Linear => fn') := by
    simp [FactorGraph.jitLinearisation, List.get?_map]
  refine ⟨?_, ?_, ?_⟩
  · rintro ⟨hk, hlt⟩
    have hb : normGtBeta (subVec (ops.adjMeansF fn.factor g.variableNodes)
        (ops.linPointF fn.factor)) g.gbpSettings.beta = true :=
      (normGtBeta_iff _ _).mpr hlt
    rw [hmap, hj]
    simp [hk, hb]
  · intro hk
    rw [hmap, hj]
    simp [hk]
  · intro hnlt
    have hb : normGtBeta (subVec (ops.adjMeansF fn.factor g.variableNodes)
        (ops.linPointF fn.factor)) g.gbpSettings.beta = false := by
      rcases h : normGtBeta (subVec (ops.adjMeansF fn.factor g.variableNodes)
          (ops.linPointF fn.factor)) g.gbpSettings.beta with _ | _
      · rfl
      · exact absurd ((normGtBeta_iff _ _).mp h) hnlt
    rw [hmap, hj]
    cases hk : ops.kindF fn.factor
    · simp [hk]
    · simp [hk, hb]

theorem jit_relinearisation_condition_witness :
    cGraphC8.factors.get? 0 =
      some ⟨0, 0, cFacNL, [0]⟩ ∧
    (cGraphC8.jitLinearisation cOps).factors.get? 0 =
      some ⟨0, 0, ⟨MeasurementModelKind.NonLinear, 2, 2, 1, 2⟩, [0]⟩ := by
  have hj : cGraphC8.factors.get? 0 = some ⟨0, 0, cFacNL, [0]⟩ := rfl
  have hs : (sumSq (subVec (cOps.adjMeansF cFacNL cGraphC8.variableNodes)
      (cOps.linPointF cFacNL)) : ℚ) = 4 := by
    norm_num [cOps, cGraphC8, cAdjMean, cVarB, cFacNL, CVar.beliefMean, sumSq, subVec]
  have hlt : (cGraphC8.gbpSettings.beta : ℝ) <
      Real.sqrt ((sumSq (subVec (cOps.adjMeansF cFacNL cGraphC8.variableNodes)
        (cOps.linPointF cFacNL)) : ℚ) : ℝ) := by
    rw [hs]
    have hbeta : cGraphC8.gbpSettings.beta = 1 := rfl
    rw [hbeta]
    have h4 : ((4 : ℚ) : ℝ) = (2 : ℝ) ^ 2 := by norm_num
    rw [h4, Real.sqrt_sq (by norm_num : (0 : ℝ) ≤ 2)]
    norm_num
  have h := (jit_relinearisation_condition cOps cGraphC8 0 ⟨0, 0, cFacNL, [0]⟩ hj).1
    ⟨rfl, hlt⟩
  refine ⟨hj, ?_⟩
  rw [h]
  have hcf : cOps.computeF cFacNL cGraphC8.variableNodes =
      (⟨MeasurementModelKind.NonLinear, 2, 2, 1, 2⟩ : CFac) := by
    norm_num [cOps, cGraphC8, cAdjMean, cVarB, cFacNL, CVar.beliefMean, CFac.mk.injEq]
  simp [hcf]

/-- C7: counterexample — with dropout = 0 but different random streams
(one always drawing 1/2, one always drawing 0, both legal values of
[0,1)), `solve` produces different energy traces on a one-factor graph:
the skip test `draw ≤ dropout` fires for the draw 0, the factor's
message is dropped, and the energies differ (2 versus 4). -/
theorem solve_trace_depends_on_stream :
    (cGraphC7.solve cOps cSolveSettings drawsHalf).2 ≠
      (cGraphC7.solve cOps cSolveSettings drawsZero).2 := by
  have h1 : cGraphC7.solve cOps cSolveSettings drawsHalf =
      (SolveStatus.MaxIterationsReached, [2]) := by
    norm_num [FactorGraph.solve, solveGo, FactorGraph.synchronousIteration,
      FactorGraph.robustifyFactors, FactorGraph.jitLinearisation,
      FactorGraph.computeMessages, computeMessagesGo, FactorGraph.updateBeliefs,
      FactorGraph.applyReset, FactorGraph.energy, cOps, cGraphC7, cSettings,
      cFac0, cVar0, cSolveSettings, drawsHalf, cAdjMean, CVar.beliefMean,
      CVar.priorMean, GbpSettings.dampingAt, normGtBeta, sumSq, subVec]
  have h2 : cGraphC7.solve cOps cSolveSettings drawsZero =
      (SolveStatus.MaxIterationsReached, [4]) := by
    norm_num [FactorGraph.solve, solveGo, FactorGraph.synchronousIteration,
      FactorGraph.robustifyFactors, FactorGraph.jitLinearisation,
      FactorGraph.computeMessages, computeMessagesGo, FactorGraph.updateBeliefs,
      FactorGraph.applyReset, FactorGraph.energy, cOps, cGraphC7, cSettings,
      cFac0, cVar0, cSolveSettings, drawsZero, cAdjMean, CVar.beliefMean,
      CVar.priorMean, GbpSettings.dampingAt, normGtBeta, sumSq, subVec]
  rw [h1, h2]
  norm_num

theorem computeMessagesGo_pos_draws {F V : Type} (ops : GbpOps F V)
    (set : GbpSettings) (apply : Dropout) (draws draws2 : ℕ → ℚ)
    (hd : set.dropout = 0) (h1 : ∀ i, 0 < draws i) (h2 : ∀ i, 0 < draws2 i) :
    ∀ (factors : List (FactorNode F)) (off off2 : ℕ) (vars : List (VariableNode V)),
      computeMessagesGo ops set apply draws off factors vars =
        computeMessagesGo ops set apply draws2 off2 factors vars := by
  intro factors
  induction factors with
  | nil => intro off off2 vars; rfl
  | cons fn rest ih =>
    intro off off2 vars
    have hC : apply.val = false ∨ set.dropout < draws off := by
      rcases h : apply.val with _ | _
      · exact Or.inl rfl
      · exact Or.inr (by rw [hd]; exact h1 off)
    have hC2 : apply.val = false ∨ set.dropout < draws2 off2 := by
      rcases h : apply.val with _ | _
      · exact Or.inl rfl
      · exact Or.inr (by rw [hd]; exact h2 off2)
    simp only [computeMessagesGo, if_pos hC, if_pos hC2]
    rw [ih]

theorem synchronousIteration_pos_draws {F V : Type} (ops : GbpOps F V)
    (g : FactorGraph F V) (draws draws2 : ℕ → ℚ) (off off2 : ℕ)
    (hd : g.gbpSettings.dropout = 0)
    (h1 : ∀ i, 0 < draws i) (h2 : ∀ i, 0 < draws2 i) :
    g.synchronousIteration ops draws off = g.synchronousIteration ops draws2 off2 := by
  unfold FactorGraph.synchronousIteration FactorGraph.computeMessages
  rw [computeMessagesGo_pos_draws ops _ _ draws draws2 (by simpa using hd) h1 h2]

theorem synchronousIteration_settings {F V : Type} (ops : GbpOps F V)
    (g : FactorGraph F V) (draws : ℕ → ℚ) (off : ℕ) :
    (g.synchronousIteration ops draws off).gbpSettings = g.gbpSettings := rfl

theorem applyReset_settings {F V : Type} (g : FactorGraph F V) (i : ℕ) :
    (g.applyReset i).gbpSettings = g.gbpSettings := by
  unfold FactorGraph.applyReset
  split <;> rfl

/-- C7 (amended): with dropout = 0, two runs of `solve` with the same
settings produce identical results whenever every draw of each stream is
strictly positive; the original claim fails only for streams that draw
exactly 0, which [0,1) permits and which the test `draw ≤ dropout` turns
into a skip. -/
theorem solve_deterministic_positive_draws {F V : Type} (ops : GbpOps F V)
    (g : FactorGraph F V) (settings : SolveSettings) (draws draws2 : ℕ → ℚ)
    (hd : g.gbpSettings.dropout = 0)
    (h1 : ∀ i, 0 < draws i) (h2 : ∀ i, 0 < draws2 i) :
    g.solve ops settings draws = g.solve ops settings draws2 := by
  suffices h : ∀ (fuel i : ℕ) (g' : FactorGraph F V) (off off2 : ℕ) (eprev : ℚ)
      (count : ℕ) (acc : List ℚ), g'.gbpSettings.dropout = 0 →
      solveGo ops settings draws fuel i g' off eprev count acc =
        solveGo ops settings draws2 fuel i g' off2 eprev count acc by
    exact h settings.iterations 0 g 0 0 0 0 [] hd
  intro fuel
  induction fuel with
  | zero => intro i g' off off2 eprev count acc _; rfl
  | succ fuel ih =>
    intro i g' off off2 eprev count acc hd'
    have hsync : g'.synchronousIteration ops draws off =
        g'.synchronousIteration ops draws2 off2 :=
      synchronousIteration_pos_draws ops g' draws draws2 off off2 hd' h1 h2
    have hg2 : ((g'.synchronousIteration ops draws2 off2).applyReset i).gbpSettings.dropout
        = 0 := by
      rw [applyReset_settings, synchronousIteration_settings]
      exact hd'
    simp only [solveGo, hsync]
    split
    · split
      · rfl
      · exact ih (i + 1) _ _ _ _ _ _ hg2
    · exact ih (i + 1) _ _ _ _ _ _ hg2

theorem convAt_append (t : ℚ) (l ext : List ℚ) (j : ℕ) (h : j < l.length) :
    convAt t (l ++ ext) j ↔ convAt t l j := by
  unfold convAt prevE
  have h1 : j - 1 < l.length := by omega
  by_cases hj : j = 0
  · subst hj
    rw [List.getD_append _ _ _ _ h]
  · simp only [hj, if_false]
    rw [List.getD_append _ _ _ _ h, List.getD_append _ _ _ _ h1]

theorem tripleAt_append (t : ℚ) (l ext : List ℚ) (j : ℕ) (h : j < l.length) :
    tripleAt t (l ++ ext) j ↔ tripleAt t l j := by
  unfold tripleAt
  rw [convAt_append t l ext j h, convAt_append t l ext (j - 1) (by omega),
    convAt_append t l ext (j - 2) (by omega)]

theorem runLenRev_le_length (t : ℚ) : ∀ acc : List ℚ, runLenRev t acc ≤ acc.length := by
  intro acc
  induction acc with
  | nil => simp [runLenRev]
  | cons e rest ih =>
    simp only [runLenRev, List.length_cons]
    split
    · exact Nat.succ_le_succ ih
    · exact Nat.zero_le _

theorem reverse_getD_last (e : ℚ) (rest : List ℚ) :
    (e :: rest).reverse.getD rest.length 0 = e := by
  rw [List.reverse_cons, List.getD_append_right _ _ _ _ (by simp)]
  simp

theorem convAt_reverse_top (t : ℚ) (e : ℚ) (rest : List ℚ) :
    convAt t (e :: rest).reverse rest.length ↔ |rest.headD 0 - e| < t := by
  cases rest with
  | nil =>
    unfold convAt prevE
    simp
  | cons r rs =>
    unfold convAt prevE
    have h0 : (r :: rs).length ≠ 0 := by simp
    rw [if_neg h0]
    have h1 : (e :: r :: rs).reverse.getD (r :: rs).length 0 = e :=
      reverse_getD_last e (r :: rs)
    have h2 : (e :: r :: rs).reverse.getD ((r :: rs).length - 1) 0 = r := by
      rw [List.reverse_cons, List.getD_append _ _ _ _ (by simp)]
      simpa using reverse_getD_last r rs
    rw [h1, h2]
    simp

theorem runLenRev_conv (t : ℚ) : ∀ (acc : List ℚ) (d : ℕ),
    d < runLenRev t acc → convAt t acc.reverse (acc.length - 1 - d) := by
  intro acc
  induction acc with
  | nil => intro d hd; simp [runLenRev] at hd
  | cons e rest ih =>
    intro d hd
    simp only [runLenRev] at hd
    by_cases hcond : |rest.headD 0 - e| < t
    · rw [if_pos hcond] at hd
      cases d with
      | zero =>
        have hidx : (e :: rest).length - 1 - 0 = rest.length := by simp
        rw [hidx]
        exact (convAt_reverse_top t e rest).mpr hcond
      | succ d' =>
        have hd' : d' < runLenRev t rest := by omega
        have hrest : 0 < runLenRev t rest := by omega
        have hlen : 0 < rest.length :=
          lt_of_lt_of_le hrest (runLenRev_le_length t rest)
        have hidx : (e :: rest).length - 1 - (d' + 1) = rest.length - 1 - d' := by
          simp only [List.length_cons]
          omega
        rw [hidx, List.reverse_cons]
        have hlt : rest.length - 1 - d' < rest.reverse.length := by
          simp only [List.length_reverse]
          omega
        exact (convAt_append t rest.reverse [e] _ hlt).mpr (ih d' hd')
    · rw [if_neg hcond] at hd
      exact absurd hd (Nat.not_lt_zero d)

theorem conv_pair_runLenRev (t : ℚ) (acc : List ℚ) (h2 : 2 ≤ acc.length)
    (hc1 : convAt t acc.reverse (acc.length - 1))
    (hc2 : convAt t acc.reverse (acc.length - 2)) :
    2 ≤ runLenRev t acc := by
  match acc, h2 with
  | e :: r :: rs, _ =>
    have hidx1 : (e :: r :: rs).length - 1 = (r :: rs).length := by simp
    have c1 : |(r :: rs).headD 0 - e| < t :=
      (convAt_reverse_top t e (r :: rs)).mp (by rw [hidx1] at hc1; exact hc1)
    have hidx2 : (e :: r :: rs).length - 2 = rs.length := by simp
    have hc2' : convAt t (r :: rs).reverse rs.length := by
      rw [hidx2] at hc2
      rw [List.reverse_cons] at hc2
      exact (convAt_append t (r :: rs).reverse [e] rs.length (by simp)).mp hc2
    have c2 : |rs.headD 0 - r| < t := (convAt_reverse_top t r rs).mp hc2'
    have hr1 : runLenRev t (e :: r :: rs) = runLenRev t (r :: rs) + 1 := by
      simp only [runLenRev]
      rw [if_pos (by simpa using c1)]
    have hr2 : runLenRev t (r :: rs) = runLenRev t rs + 1 := by
      simp only [runLenRev]
      rw [if_pos (by simpa using c2)]
    omega

theorem solveGo_spec {F V : Type} (ops : GbpOps F V) (settings : SolveSettings)
    (draws : ℕ → ℚ) :
    ∀ (fuel i : ℕ) (g : FactorGraph F V) (off : ℕ) (eprev : ℚ) (count : ℕ)
      (acc : List ℚ) (st : SolveStatus) (tr : List ℚ),
      eprev = acc.headD 0 →
      count = runLenRev settings.convergenceThreshold acc →
      count ≤ 2 →
      (∀ j, j < acc.length →
        ¬ tripleAt settings.convergenceThreshold acc.reverse j) →
      solveGo ops settings draws fuel i g off eprev count acc = (st, tr) →
      ∃ ext : List ℚ, tr = acc.reverse ++ ext ∧ ext.length ≤ fuel ∧
        (st = SolveStatus.Converged →
          0 < tr.length ∧
          tripleAt settings.convergenceThreshold tr (tr.length - 1) ∧
          ∀ j, j + 1 < tr.length →
            ¬ tripleAt settings.convergenceThreshold tr j) ∧
        (st = SolveStatus.MaxIterationsReached →
          ext.length = fuel ∧
          ∀ j, j < tr.length →
            ¬ tripleAt settings.convergenceThreshold tr j) := by
  intro fuel
  induction fuel with
  | zero =>
    intro i g off eprev count acc st tr hprev hcount hle hnt heq
    simp only [solveGo, Prod.mk.injEq] at heq
    obtain ⟨hst, htr⟩ := heq
    refine ⟨[], by simp [← htr], by simp, ?_, ?_⟩
    · intro hcv
      rw [← hst] at hcv
      exact absurd hcv (by simp)
    · intro _
      refine ⟨rfl, ?_⟩
      intro j hj
      rw [← htr] at hj ⊢
      exact hnt j (by simpa using hj)
  | succ fuel ih =>
    intro i g off eprev count acc st tr hprev hcount hle hnt heq
    simp only [solveGo] at heq
    set g2 := (g.synchronousIteration ops draws off).applyReset i with hg2
    set enow := g2.energy ops settings.includePriors with henow
    set t := settings.convergenceThreshold with ht
    by_cases hc : |eprev - enow| < t
    · rw [if_pos hc] at heq
      by_cases hcnt : 3 ≤ count + 1
      · rw [if_pos hcnt] at heq
        simp only [Prod.mk.injEq] at heq
        obtain ⟨hst, htr⟩ := heq
        have hcount2 : count = 2 := by omega
        have hrl2 : runLenRev t acc = 2 := by rw [← hcount]; exact hcount2.symm ▸ rfl
        have hlen2 : 2 ≤ acc.length :=
          le_trans (by rw [hrl2]) (runLenRev_le_length t acc)
        have htr' : tr = acc.reverse ++ [enow] := by
          rw [← htr, List.reverse_cons]
        have htrlen : tr.length = acc.length + 1 := by
          rw [htr']; simp
        refine ⟨[enow], htr', by simp, ?_, ?_⟩
        · intro _
          refine ⟨by omega, ?_, ?_⟩
          · have hidx : tr.length - 1 = acc.length := by omega
            rw [hidx]
            have hcj : convAt t tr acc.length := by
              rw [← htr]
              refine (convAt_reverse_top t enow acc).mpr ?_
              rw [← hprev]
              simpa [abs_sub_comm] using hc
            have hcj1 : convAt t tr (acc.length - 1) := by
              rw [htr']
              refine (convAt_append t acc.reverse [enow] _ (by simp; omega)).mpr ?_
              have := runLenRev_conv t acc 0 (by omega)
              simpa using this
            have hcj2 : convAt t tr (acc.length - 2) := by
              rw [htr']
              refine (convAt_append t acc.reverse [enow] _ (by simp; omega)).mpr ?_
              have := runLenRev_conv t acc 1 (by omega)
              have hidx2 : acc.length - 1 - 1 = acc.length - 2 := by omega
              rw [hidx2] at this
              exact this
            exact ⟨by omega, hcj, hcj1, hcj2⟩
          · intro j hj
            have hjlt : j < acc.length := by omega
            rw [htr']
            rw [tripleAt_append t acc.reverse [enow] j (by simpa using hjlt)]
            exact hnt j hjlt
        · intro hmx
          rw [← hst] at hmx
          exact absurd hmx (by simp)
      · rw [if_neg hcnt] at heq
        have hnt2 : ∀ j, j < (enow :: acc).length →
            ¬ tripleAt t (enow :: acc).reverse j := by
          intro j hj
          rw [List.reverse_cons]
          by_cases hjlt : j < acc.length
          · rw [tripleAt_append t acc.reverse [enow] j (by simpa using hjlt)]
            exact hnt j hjlt
          · have hjeq : j = acc.length := by
              simp only [List.length_cons] at hj
              omega
            subst hjeq
            intro htrip
            obtain ⟨hj2, hcj, hcj1, hcj2⟩ := htrip
            have hc1' : convAt t acc.reverse (acc.length - 1) :=
              (convAt_append t acc.reverse [enow] _ (by simp; omega)).mp hcj1
            have hc2' : convAt t acc.reverse (acc.length - 2) :=
              (convAt_append t acc.reverse [enow] _ (by simp; omega)).mp hcj2
            have := conv_pair_runLenRev t acc hj2 hc1' hc2'
            omega
        obtain ⟨ext', htr', hlen', hcv', hmx'⟩ := ih (i + 1) g2
          (off + g.factors.length) enow (count + 1) (enow :: acc) st tr
          (by simp) (by simp only [runLenRev]
                        rw [if_pos (by rw [← hprev]; exact hc), ← hcount])
          (by omega) hnt2 heq
        refine ⟨enow :: ext', ?_, by simpa using hlen', hcv', ?_⟩
        · rw [htr', List.reverse_cons, List.append_assoc]
          simp
        · intro hmx
          obtain ⟨hl, hj⟩ := hmx' hmx
          exact ⟨by simp [hl], hj⟩
    · rw [if_neg hc] at heq
      have hnt2 : ∀ j, j < (enow :: acc).length →
          ¬ tripleAt t (enow :: acc).reverse j := by
        intro j hj
        rw [List.reverse_cons]
        by_cases hjlt : j < acc.length
        · rw [tripleAt_append t acc.reverse [enow] j (by simpa using hjlt)]
          exact hnt j hjlt
        · have hjeq : j = acc.length := by
            simp only [List.length_cons] at hj
            omega
          subst hjeq
          intro htrip
          obtain ⟨hj2, hcj, hcj1, hcj2⟩ := htrip
          have : |acc.headD 0 - enow| < t := by
            have := (convAt_reverse_top t enow acc).mp (by
              rw [List.reverse_cons]
              exact hcj)
            exact this
          rw [← hprev] at this
          exact hc (by simpa [abs_sub_comm] using this)
      obtain ⟨ext', htr', hlen', hcv', hmx'⟩ := ih (i + 1) g2
        (off + g.factors.length) enow 0 (enow :: acc) st tr
        (by simp) (by simp only [runLenRev]
                      rw [if_neg (by rw [← hprev]; exact hc)])
        (by omega) hnt2 heq
      refine ⟨enow :: ext', ?_, by simpa using hlen', hcv', ?_⟩
      · rw [htr', List.reverse_cons, List.append_assoc]
        simp
      · intro hmx
        obtain ⟨hl, hj⟩ := hmx' hmx
        exact ⟨by simp [hl], hj⟩

/-- C2: for settings with iterations n > 0, `solve` executes at most n
synchronous iterations (one energy per executed iteration); it exits
`Converged` exactly when |energy_prev − energy_now| dipped below the
threshold for 3 consecutive iterations — at the earliest such iteration —
and exits `MaxIterationsReached` after the n-th iteration otherwise,
having seen no run of 3 consecutive convergent iterations. -/
theorem solve_runs_and_convergence {F V : Type} (ops : GbpOps F V)
    (g : FactorGraph F V) (settings : SolveSettings) (draws : ℕ → ℚ)
    (hn : 0 < settings.iterations) :
    (g.solve ops settings draws).2.length ≤ settings.iterations ∧
    ((g.solve ops settings draws).1 = SolveStatus.Converged →
      tripleAt settings.convergenceThreshold (g.solve ops settings draws).2
        ((g.solve ops settings draws).2.length - 1) ∧
      ∀ j, j + 1 < (g.solve ops settings draws).2.length →
        ¬ tripleAt settings.convergenceThreshold
          (g.solve ops settings draws).2 j) ∧
    ((g.solve ops settings draws).1 = SolveStatus.MaxIterationsReached →
      (g.solve ops settings draws).2.length = settings.iterations ∧
      ∀ j, j < settings.iterations →
        ¬ tripleAt settings.convergenceThreshold
          (g.solve ops settings draws).2 j) := by
  have heq : solveGo ops settings draws settings.iterations 0 g 0 0 0 [] =
      ((g.solve ops settings draws).1, (g.solve ops settings draws).2) := rfl
  obtain ⟨ext, htr, hlen, hcv, hmx⟩ := solveGo_spec ops settings draws
    settings.iterations 0 g 0 0 0 [] (g.solve ops settings draws).1
    (g.solve ops settings draws).2 rfl rfl (by omega)
    (fun j hj => absurd hj (by simp)) heq
  have htr' : (g.solve ops settings draws).2 = ext := by simpa using htr
  refine ⟨?_, ?_, ?_⟩
  · rw [htr']; exact hlen
  · intro hcvd
    obtain ⟨_, h2, h3⟩ := hcv hcvd
    exact ⟨h2, h3⟩
  · intro hmxd
    obtain ⟨h1, h2⟩ := hmx hmxd
    have hl : (g.solve ops settings draws).2.length = settings.iterations := by
      rw [htr', h1]
    exact ⟨hl, fun j hj => h2 j (by rw [hl]; exact hj)⟩

theorem solve_runs_and_convergence_witness :
    0 < cSolveSettings.iterations ∧
    (cGraphC3.solve cOps cSolveSettings drawsHalf).2.length ≤
      cSolveSettings.iterations :=
  ⟨by norm_num [cSolveSettings],
    (solve_runs_and_convergence cOps cGraphC3 cSolveSettings drawsHalf
      (by norm_num [cSolveSettings])).1⟩

theorem solve_deterministic_positive_draws_witness :
    cGraphC7.gbpSettings.dropout = 0 ∧
    cGraphC7.solve cOps cSolveSettings drawsHalf =
      cGraphC7.solve cOps cSolveSettings drawsThird :=
  ⟨rfl, solve_deterministic_positive_draws cOps cGraphC7 cSolveSettings
    drawsHalf drawsThird rfl (fun _ => by norm_num [drawsHalf])
    (fun _ => by norm_num [drawsThird])⟩

theorem rowsAddAssignMat_some {dst : List ℚ} {i n : ℕ} {m : Mat} {out : List ℚ}
    (h : rowsAddAssignMat dst i n m = some out) :
    i + n ≤ dst.length ∧ out.length = dst.length := by
  unfold rowsAddAssignMat at h
  split at h
  · rename_i hcond
    refine ⟨hcond.1, ?_⟩
    injection h with h'
    rw [← h']
    simp
  · exact absurd h (by simp)

theorem gradientPriorGo_some_bounds {V : Type} (bm pm : V → List ℚ) (pc : V → Mat)
    (varIx : List ℕ) :
    ∀ (vars : List (VariableNode V)) (grad out : List ℚ),
      gradientPriorGo bm pm pc varIx vars grad = some out →
      ∀ vn ∈ vars, ∃ ix, varIx.get? vn.id = some ix ∧ ix + vn.dofs ≤ grad.length := by
  intro vars
  induction vars with
  | nil => intro grad out _ vn hvn; simp at hvn
  | cons v rest ih =>
    intro grad out h vn hvn
    cases hix : varIx.get? v.id with
    | none =>
      simp only [gradientPriorGo, hix, Option.bind_eq_bind, Option.none_bind] at h
      simp at h
    | some ix =>
      simp only [gradientPriorGo, hix, Option.bind_eq_bind, Option.some_bind] at h
      cases hdiff : subVecChecked (bm v.variableData) (pm v.variableData) with
      | none =>
        rw [hdiff, Option.none_bind] at h
        simp at h
      | some diff =>
        rw [hdiff, Option.some_bind] at h
        cases hprod : (vecAsMat diff).mul (pc v.variableData) with
        | none =>
          rw [hprod, Option.none_bind] at h
          simp at h
        | some prod =>
          rw [hprod, Option.some_bind] at h
          cases hgrad2 : rowsAddAssignMat grad ix v.dofs prod with
          | none =>
            rw [hgrad2, Option.none_bind] at h
            simp at h
          | some grad2 =>
            rw [hgrad2, Option.some_bind] at h
            obtain ⟨hbound, hlen⟩ := rowsAddAssignMat_some hgrad2
            rcases List.mem_cons.mp hvn with rfl | hvn'
            · exact ⟨ix, hix, hbound⟩
            · obtain ⟨ix', hix', hbound'⟩ := ih grad2 out h vn hvn'
              exact ⟨ix', hix', by rw [← hlen]; exact hbound'⟩

theorem cumSumInc_get : ∀ (l : List ℕ) (acc k : ℕ), k < l.length →
    (cumSumInc acc l).get? k = some (acc + (l.take (k + 1)).sum) := by
  intro l
  induction l with
  | nil => intro acc k hk; simp at hk
  | cons x xs ih =>
    intro acc k hk
    cases k with
    | zero => simp [cumSumInc]
    | succ k' =>
      simp only [cumSumInc, List.get?_cons_succ, List.take_succ_cons, List.sum_cons]
      rw [ih (acc + x) k' (by simpa using hk)]
      congr 1
      omega

theorem exists_last_pos : ∀ (l : List ℕ), (∃ x ∈ l, 0 < x) →
    ∃ k, ∃ h : k < l.length, 0 < l.get ⟨k, h⟩ ∧ (l.drop (k + 1)).sum = 0 := by
  intro l
  induction l with
  | nil => intro h; simp at h
  | cons x xs ih =>
    intro h
    by_cases hxs : ∃ y ∈ xs, 0 < y
    · obtain ⟨k, hk, hpos, hdrop⟩ := ih hxs
      exact ⟨k + 1, by simpa using Nat.succ_lt_succ hk, by simpa using hpos,
        by simpa using hdrop⟩
    · have hx : 0 < x := by
        rcases h with ⟨y, hy, hypos⟩
        rcases List.mem_cons.mp hy with rfl | hy'
        · exact hypos
        · exact absurd ⟨y, hy', hypos⟩ hxs
      have hz : xs.sum = 0 := by
        refine List.sum_eq_zero ?_
        intro y hy
        by_contra hne
        exact hxs ⟨y, hy, Nat.pos_of_ne_zero hne⟩
      exact ⟨0, by simp, by simpa using hx, by simpa using hz⟩

/-- C10: with include_priors = true and at least one variable of positive
dofs (ids being the dense positional indices), `gradient` hits an
out-of-range row write — `var_ix` is an inclusive prefix sum, so the slice
of the last positive-dofs variable starts at the full joint dimension —
and panics instead of returning a gradient vector. -/
theorem gradient_inclusive_cumsum_panics {F V : Type} (ops : GbpOps F V)
    (g : FactorGraph F V)
    (hid : ∀ (k : ℕ) (h : k < g.variableNodes.length),
      (g.variableNodes.get ⟨k, h⟩).id = k)
    (hpos : ∃ vn ∈ g.variableNodes, 0 < vn.dofs) :
    g.gradient ops ⟨true⟩ = none := by
  by_contra hne
  obtain ⟨out, hout⟩ := Option.ne_none_iff_exists'.mp hne
  have hgr : g.gradient ops ⟨true⟩ =
      gradientPriorGo ops.beliefMeanV ops.priorMeanV ops.priorCovV
        (cumSumInc 0 (g.variableNodes.map (fun vn => vn.dofs))) g.variableNodes
        (List.replicate g.getJointDim (0 : ℚ)) := by
    cases hP : gradientPriorGo ops.beliefMeanV ops.priorMeanV ops.priorCovV
        (cumSumInc 0 (g.variableNodes.map (fun vn => vn.dofs))) g.variableNodes
        (List.replicate g.getJointDim (0 : ℚ)) with
    | none => simp [FactorGraph.gradient, hP]
    | some v2 => simp [FactorGraph.gradient, hP]
  have hploop : gradientPriorGo ops.beliefMeanV ops.priorMeanV ops.priorCovV
      (cumSumInc 0 (g.variableNodes.map (fun vn => vn.dofs))) g.variableNodes
      (List.replicate g.getJointDim (0 : ℚ)) = some out := by
    rw [← hgr]
    exact hout
  obtain ⟨k, hk, hkpos, hkdrop⟩ :=
    exists_last_pos (g.variableNodes.map (fun vn => vn.dofs)) (by
      obtain ⟨vn, hvn, hp⟩ := hpos
      exact ⟨vn.dofs, List.mem_map_of_mem _ hvn, hp⟩)
  have hklen : k < g.variableNodes.length := by simpa using hk
  obtain ⟨ix, hix, hbound⟩ := gradientPriorGo_some_bounds
    ops.beliefMeanV ops.priorMeanV ops.priorCovV _ _ _ _ hploop
    (g.variableNodes.get ⟨k, hklen⟩) (List.get_mem _ _ _)
  rw [hid k hklen] at hix
  have hix' : (cumSumInc 0 (g.variableNodes.map (fun vn => vn.dofs))).get? k =
      some (0 + ((g.variableNodes.map (fun vn => vn.dofs)).take (k + 1)).sum) :=
    cumSumInc_get _ 0 k hk
  rw [hix'] at hix
  injection hix with hixeq
  have hdofs : (g.variableNodes.get ⟨k, hklen⟩).dofs =
      (g.variableNodes.map (fun vn => vn.dofs)).get ⟨k, hk⟩ := by
    simp
  have hsum : ((g.variableNodes.map (fun vn => vn.dofs)).take (k + 1)).sum =
      (g.variableNodes.map (fun vn => vn.dofs)).sum := by
    conv_rhs => rw [← List.take_append_drop (k + 1)
      (g.variableNodes.map (fun vn => vn.dofs))]
    rw [List.sum_append, hkdrop]
    omega
  have hglen : (List.replicate g.getJointDim (0 : ℚ)).length =
      (g.variableNodes.map (fun vn => vn.dofs)).sum := by
    simp [FactorGraph.getJointDim]
  rw [hglen] at hbound
  rw [← hixeq, hsum] at hbound
  rw [← hdofs] at hkpos
  omega

theorem gradient_inclusive_cumsum_panics_witness :
    (∀ (k : ℕ) (h : k < cGraphC10.variableNodes.length),
      (cGraphC10.variableNodes.get ⟨k, h⟩).id = k) ∧
    (∃ vn ∈ cGraphC10.variableNodes, 0 < vn.dofs) ∧
    cGraphC10.gradient cOps ⟨true⟩ = none :=
  ⟨by decide, ⟨⟨0, 1, cVarB⟩, by decide, by decide⟩,
    gradient_inclusive_cumsum_panics cOps cGraphC10 (by decide)
      ⟨⟨0, 1, cVarB⟩, by decide, by decide⟩⟩
